import Mathlib

/-!
Verification of the zeekscript formatting engine (src/zeekscript/output.py and
src/zeekscript/formatter.py) against its natural-language specification.

Bytes are modelled as natural numbers (their ASCII codes), byte strings as
`List Nat`.  The output sink is modelled as a list of tagged write events so
that theorems can talk about which source-level `_write` call produced which
bytes; flattening the events recovers the exact byte stream the Python code
writes.
-/

namespace Zeek

/-- ASCII whitespace bytes, as recognised by Python `bytes.strip()`:
space, tab, newline, carriage return, vertical tab, form feed. -/
def isWSb (b : Nat) : Bool :=
  b == 32 || b == 9 || b == 10 || b == 13 || b == 11 || b == 12

/-- `blankB l` is true iff Python `not l.strip()`: `l` is empty or all whitespace. -/
def blankB (l : List Nat) : Bool := l.all isWSb

/-- Python `bytes.rstrip()`: remove trailing whitespace bytes. -/
def rstripB (l : List Nat) : List Nat := (l.reverse.dropWhile isWSb).reverse

/-- Python `bytes.lstrip()`: remove leading whitespace bytes. -/
def lstripB (l : List Nat) : List Nat := l.dropWhile isWSb

/-- `Formatter.NL`: the newline byte string (`os.linesep` on Linux is `"\n"`). -/
def NLB : List Nat := [10]

/-- Python `chunk.endswith(Formatter.NL)`. -/
def endsNL (l : List Nat) : Bool := l.getLast? == some 10

/-- Worker for `splitKeep` (Python `bytes.splitlines(keepends=True)`):
line boundaries are `\n`, `\r` and `\r\n`, kept at the end of each piece. -/
def splitKeepGo (acc : List Nat) : List Nat → List (List Nat)
  | [] => if acc = [] then [] else [acc]
  | 13 :: 10 :: rest => (acc ++ [13, 10]) :: splitKeepGo [] rest
  | 13 :: rest => (acc ++ [13]) :: splitKeepGo [] rest
  | 10 :: rest => (acc ++ [10]) :: splitKeepGo [] rest
  | b :: rest => splitKeepGo (acc ++ [b]) rest

/-- Python `data.splitlines(keepends=True)` on bytes. -/
def splitKeep (l : List Nat) : List (List Nat) := splitKeepGo [] l

/-- The linebreak hint flags of `formatter.Hint` (the `NONE` member carries no
information for membership tests and is not represented). -/
structure Hints where
  goodAfterLB : Bool
  noLbBefore : Bool
  noLbAfter : Bool
  zeroWidth : Bool
deriving DecidableEq, Repr

/-- `Hint.NONE`: the empty hint set. -/
def noHints : Hints := ⟨false, false, false, false⟩

/-- `CommentFormatter.__init__`: every comment formatter adds `Hint.ZERO_WIDTH`
to its inherited hints (formatter.py lines 1130-1134). -/
def commentInitHints (h : Hints) : Hints := { h with zeroWidth := true }

/-- An `Output` object: one buffered chunk of data, with the hints of the
formatter that wrote it (the only formatter state `_flush_line` reads). -/
structure Chunk where
  data : List Nat
  hints : Hints
deriving DecidableEq, Repr

/-- Which call site of `write_linebreak` inside `_flush_line` wrote a break:
the `GOOD_AFTER_LB` branch (advisory) or the width/line-items branch (auto). -/
inductive BrkKind where
  | advisory
  | auto
deriving DecidableEq, Repr

/-- One `self._write(...)` call made by `OutputStream`: either a buffered
chunk's data (from `flush_tbd`) or one of the three writes of
`write_linebreak` (newline, tab run, space run). -/
inductive Ev where
  | chunkEv (c : Chunk)
  | nlEv (k : BrkKind)
  | tabsEv (n : Nat)
  | spacesEv (n : Nat)
deriving DecidableEq, Repr

/-- The exact bytes a write event hands to the underlying sink. -/
def flattenEv : Ev → List Nat
  | .chunkEv c => c.data
  | .nlEv _ => NLB
  | .tabsEv n => List.replicate n 9
  | .spacesEv n => List.replicate n 32

/-- Project the chunk-data events out of an event list, in order. -/
def chunksOf (evs : List Ev) : List Chunk :=
  evs.filterMap fun e => match e with | .chunkEv c => some c | _ => none

/-- OutputStream.MAX_LINE_LEN. -/
def MAX_LINE_LEN : Nat := 80
/-- OutputStream.MIN_LINE_ITEMS. -/
def MIN_LINE_ITEMS : Nat := 5
/-- OutputStream.TAB_SIZE. -/
def TAB_SIZE : Nat := 8
/-- OutputStream.SPACE_INDENT. -/
def SPACE_INDENT : Nat := 4

/-- The local state of one `_flush_line` call: `col_flushed`, `tbd`,
`tbd_len`, `using_break_hints`, plus the write events emitted so far.
`tbd_len` is an `Int` because Python's arithmetic lets it go negative when a
zero-width whitespace chunk is popped by `write_linebreak`. -/
structure FlushSt where
  colFlushed : Int
  tbd : List Chunk
  tbdLen : Int
  usingBreakHints : Bool
  evs : List Ev
deriving DecidableEq, Repr

/-- The `while tbd and not tbd[0].data.strip()` loop of `write_linebreak`:
pop pure-whitespace chunks from the front of `tbd`, subtracting their raw
lengths from `tbd_len`. -/
def popBlanksGo : List Chunk → Int → List Chunk × Int
  | [], n => ([], n)
  | c :: r, n => if blankB c.data then popBlanksGo r (n - c.data.length) else (c :: r, n)

/-- `write_linebreak` in `_flush_line`: write a newline, the tab indentation
and the fixed space run, reset `col_flushed` to the resulting indentation
width, and drop leading pure-whitespace chunks from `tbd`. -/
def writeLinebreak (tabIndent : Nat) (k : BrkKind) (st : FlushSt) : FlushSt :=
  let p := popBlanksGo st.tbd st.tbdLen
  { colFlushed := (tabIndent * TAB_SIZE + SPACE_INDENT : Nat),
    tbd := p.1,
    tbdLen := p.2,
    usingBreakHints := st.usingBreakHints,
    evs := st.evs ++ [.nlEv k, .tabsEv tabIndent, .spacesEv SPACE_INDENT] }

/-- `flush_tbd` in `_flush_line`: write out every pending chunk, advancing
`col_flushed` by each chunk's raw length, then clear `tbd` and `tbd_len`. -/
def flushTbd (st : FlushSt) : FlushSt :=
  { colFlushed := st.colFlushed + ((st.tbd.map fun c => (c.data.length : Int)).sum),
    tbd := [],
    tbdLen := 0,
    usingBreakHints := st.usingBreakHints,
    evs := st.evs ++ st.tbd.map .chunkEv }

/-- `all_blank` in `_flush_line`. -/
def allBlank (tbd : List Chunk) : Bool := tbd.all fun c => blankB c.data

/-- "Establish how long the pending chunk is, given hinting": the length a
chunk contributes to `tbd_len` (zero when hinted `ZERO_WIDTH`). -/
def hintedLen (out : Chunk) : Int :=
  if out.hints.zeroWidth then 0 else (out.data.length : Int)

/-- The four `continue` guards of the `_flush_line` loop body, in source
order: pure-whitespace chunks are deferred, and the hinted linebreak
suppressions (`NO_LB_AFTER` on this chunk, `NO_LB_BEFORE` on the next chunk,
`NO_LB_BEFORE` on this chunk with only whitespace pending before it) skip
the break decision.  `st` is the loop state before this chunk was appended
to `tbd` (so `st.tbd` is Python's `tbd[:-1]`). -/
def flushContinue (st : FlushSt) (out : Chunk) (nxt : Option Chunk) : Bool :=
  blankB out.data
  || out.hints.noLbAfter
  || (nxt.map fun c => c.hints.noLbBefore).getD false
  || (out.hints.noLbBefore && allBlank st.tbd)

/-- The break decision of the `_flush_line` loop body, applied to the state
`st1` that already holds the current chunk in `tbd`: an advisory break when
the chunk is hinted `GOOD_AFTER_LB` and the line's column exceeds the
budget (locking in advisory-only wrapping), else an automatic break when
advisory wrapping is unused, the flushed column plus the pending length
exceeds the budget, and the line has enough items; else nothing. -/
def flushBreakPhase (lineItems tabIndent col : Nat) (out : Chunk) (st1 : FlushSt) :
    FlushSt :=
  if out.hints.goodAfterLB && decide (col > MAX_LINE_LEN) then
    { writeLinebreak tabIndent .advisory st1 with usingBreakHints := true }
  else if !st1.usingBreakHints
      && decide (st1.colFlushed + st1.tbdLen > (MAX_LINE_LEN : Int))
      && decide (lineItems ≥ MIN_LINE_ITEMS) then
    writeLinebreak tabIndent .auto st1
  else st1

/-- One iteration of the `for out, out_next in zip(...)` loop of
`_flush_line`.  `lineItems` is the pre-computed non-whitespace chunk count,
`col` is `self._col` (fixed during the flush), `tabIndent` is
`self._tab_indent`, and `nxt` is the next chunk in the buffer, if any.
The chunk joins `tbd` with its hinted length; when none of the `continue`
guards fire, the break decision runs and the pending chunks are flushed. -/
def flushStep (lineItems tabIndent col : Nat) (st : FlushSt) (out : Chunk)
    (nxt : Option Chunk) : FlushSt :=
  let st1 : FlushSt :=
    { st with tbd := st.tbd ++ [out], tbdLen := st.tbdLen + hintedLen out }
  if flushContinue st out nxt then st1
  else flushTbd (flushBreakPhase lineItems tabIndent col out st1)

/-- The whole `for` loop of `_flush_line` over the line buffer. -/
def flushLoop (lineItems tabIndent col : Nat) (st : FlushSt) : List Chunk → FlushSt
  | [] => st
  | out :: rest => flushLoop lineItems tabIndent col
      (flushStep lineItems tabIndent col st out rest.head?) rest

/-- `line_items` pre-computation of `_flush_line`. -/
def lineItemsOf (buf : List Chunk) : Nat := (buf.filter fun c => !blankB c.data).length

/-- `_flush_line` on a buffered line: run the loop from the initial local
state and do the final `flush_tbd`.  Returns the final local state (whose
`evs` are all the writes the flush performed). -/
def flushEventsSt (buf : List Chunk) (tabIndent col : Nat) : FlushSt :=
  flushTbd (flushLoop (lineItemsOf buf) tabIndent col ⟨0, [], 0, false, []⟩ buf)

/-- The `OutputStream` object state: `_col`, `_tab_indent`, `_linebuffer`,
`_space_align`, and the events written to the sink so far. -/
structure OutputStream where
  col : Nat
  tabIndent : Nat
  linebuffer : List Chunk
  spaceAlign : Bool
  evs : List Ev
deriving DecidableEq, Repr

/-- A freshly constructed `OutputStream`. -/
def ost0 : OutputStream := ⟨0, 0, [], false, []⟩

/-- `OutputStream._flush_line`: flush the buffered line, then reset the
buffer and the column counter. -/
def OutputStream.flushLine (st : OutputStream) : OutputStream :=
  let fin := flushEventsSt st.linebuffer st.tabIndent st.col
  { st with evs := st.evs ++ fin.evs, linebuffer := [], col := 0 }

/-- The trailing-whitespace normalization of `OutputStream.write`:
`chunk = chunk.rstrip() + Formatter.NL` for newline-terminated pieces. -/
def normPiece (piece : List Nat) : List Nat :=
  if endsNL piece then rstripB piece ++ NLB else piece

/-- The per-piece body of `OutputStream.write`: strip trailing whitespace
from a newline-terminated piece, buffer it, advance `_col`, and flush on a
line terminator. -/
def writeChunkStep (h : Hints) (st : OutputStream) (piece : List Nat) : OutputStream :=
  let p := normPiece piece
  let st2 : OutputStream := { st with
    linebuffer := st.linebuffer ++ [⟨p, h⟩],
    col := st.col + p.length }
  if endsNL p then st2.flushLine else st2

/-- `OutputStream.write(data, formatter)`: split the data into
terminator-keeping pieces and process each (only the formatter's hint set is
consulted downstream, so it stands in for the formatter argument). -/
def OutputStream.write (st : OutputStream) (data : List Nat) (h : Hints) : OutputStream :=
  (splitKeep data).foldl (writeChunkStep h) st

/-- The byte stream the sink has received. -/
def sinkBytes (st : OutputStream) : List Nat := (st.evs.map flattenEv).flatten

/-- `OutputStream.set_space_align`. -/
def OutputStream.setSpaceAlign (st : OutputStream) (enable : Bool) : OutputStream :=
  { st with spaceAlign := enable }

/-- Modelled from the spec: `formatter.py` calls `ostream.use_space_align`,
`OutputStream`'s toggle for the space-alignment mode that
`write_space_align` consults; the method body is absent from the
`output.py` under verification (which spells it `set_space_align`), so it is
modelled as setting the flag, per spec section 4.4 and the source's
`set_space_align`. -/
def OutputStream.useSpaceAlign (st : OutputStream) (enable : Bool) : OutputStream :=
  { st with spaceAlign := enable }

/-- `OutputStream.write_tab_indent(formatter)`: record the formatter's indent
as the stream's tab indentation and write that many tabs. -/
def OutputStream.writeTabIndent (st : OutputStream) (indent : Nat) (h : Hints) : OutputStream :=
  OutputStream.write { st with tabIndent := indent } (List.replicate indent 9) h

/-- `OutputStream.write_space_align(formatter)`: when space-alignment mode is
on, write four spaces. -/
def OutputStream.writeSpaceAlign (st : OutputStream) (h : Hints) : OutputStream :=
  if st.spaceAlign then st.write (List.replicate 4 32) h else st

/-! ### The formatter class registry (`NodeMapper`, formatter.py) -/

/-- The formatter classes defined at module level in `formatter.py` (the
classes `inspect.getmembers(sys.modules[__name__], ...)` can find). -/
inductive FClass where
  | Formatter
  | NullFormatter
  | LineFormatter
  | SpaceSeparatedFormatter
  | PreprocDirectiveFormatter
  | ModuleDeclFormatter
  | ExportDeclFormatter
  | TypedInitializerFormatter
  | GlobalDeclFormatter
  | InitializerFormatter
  | InitFormatter
  | RedefEnumDeclFormatter
  | RedefRecordDeclFormatter
  | TypeDeclFormatter
  | TypeFormatter
  | TypeSpecFormatter
  | EnumBodyFormatter
  | FuncDeclFormatter
  | FuncHdrFormatter
  | FuncHdrVariantFormatter
  | FuncParamsFormatter
  | FuncBodyFormatter
  | FormalArgsFormatter
  | FormalArgFormatter
  | CaptureListFormatter
  | StmtFormatter
  | ExprListFormatter
  | CaseListFormatter
  | CaseTypeListFormatter
  | EventHdrFormatter
  | ExprFormatter
  | NlFormatter
  | AttrFormatter
  | CommentFormatter
  | MinorCommentFormatter
  | ZeekygenCommentFormatter
  | ZeekygenPrevCommentFormatter
deriving DecidableEq, Repr

/-- Python `str.split('_')` on the characters of a symbol name. -/
def splitUnderscore : List Char → List (List Char)
  | [] => [[]]
  | c :: rest =>
    if c = '_' then [] :: splitUnderscore rest
    else match splitUnderscore rest with
      | [] => [[c]]
      | p :: ps => (c :: p) :: ps

/-- Python `str.title()` restricted to ASCII: uppercase each letter that
follows a non-letter, lowercase the other letters. -/
def pyTitleGo (prevAlpha : Bool) : List Char → List Char
  | [] => []
  | c :: rest =>
    if c.isAlpha then
      (if prevAlpha then c.toLower else c.toUpper) :: pyTitleGo true rest
    else c :: pyTitleGo false rest

/-- Python `part.title()` for one underscore-separated part. -/
def pyTitle (part : List Char) : List Char := pyTitleGo false part

/-- `NodeMapper._find_class`'s derived class name:
`''.join(part.title() for part in symbol_name.split('_')) + 'Formatter'`. -/
def derivedName (symbol : String) : List Char :=
  ((splitUnderscore symbol.data).map pyTitle).flatten ++ "Formatter".data

/-- The mapping from module-level class names to classes that
`inspect.getmembers` exposes to `NodeMapper._find_class`. -/
def knownClasses : List (List Char × FClass) :=
  [("Formatter".data, .Formatter),
   ("NullFormatter".data, .NullFormatter),
   ("LineFormatter".data, .LineFormatter),
   ("SpaceSeparatedFormatter".data, .SpaceSeparatedFormatter),
   ("PreprocDirectiveFormatter".data, .PreprocDirectiveFormatter),
   ("ModuleDeclFormatter".data, .ModuleDeclFormatter),
   ("ExportDeclFormatter".data, .ExportDeclFormatter),
   ("TypedInitializerFormatter".data, .TypedInitializerFormatter),
   ("GlobalDeclFormatter".data, .GlobalDeclFormatter),
   ("InitializerFormatter".data, .InitializerFormatter),
   ("InitFormatter".data, .InitFormatter),
   ("RedefEnumDeclFormatter".data, .RedefEnumDeclFormatter),
   ("RedefRecordDeclFormatter".data, .RedefRecordDeclFormatter),
   ("TypeDeclFormatter".data, .TypeDeclFormatter),
   ("TypeFormatter".data, .TypeFormatter),
   ("TypeSpecFormatter".data, .TypeSpecFormatter),
   ("EnumBodyFormatter".data, .EnumBodyFormatter),
   ("FuncDeclFormatter".data, .FuncDeclFormatter),
   ("FuncHdrFormatter".data, .FuncHdrFormatter),
   ("FuncHdrVariantFormatter".data, .FuncHdrVariantFormatter),
   ("FuncParamsFormatter".data, .FuncParamsFormatter),
   ("FuncBodyFormatter".data, .FuncBodyFormatter),
   ("FormalArgsFormatter".data, .FormalArgsFormatter),
   ("FormalArgFormatter".data, .FormalArgFormatter),
   ("CaptureListFormatter".data, .CaptureListFormatter),
   ("StmtFormatter".data, .StmtFormatter),
   ("ExprListFormatter".data, .ExprListFormatter),
   ("CaseListFormatter".data, .CaseListFormatter),
   ("CaseTypeListFormatter".data, .CaseTypeListFormatter),
   ("EventHdrFormatter".data, .EventHdrFormatter),
   ("ExprFormatter".data, .ExprFormatter),
   ("NlFormatter".data, .NlFormatter),
   ("AttrFormatter".data, .AttrFormatter),
   ("CommentFormatter".data, .CommentFormatter),
   ("MinorCommentFormatter".data, .MinorCommentFormatter),
   ("ZeekygenCommentFormatter".data, .ZeekygenCommentFormatter),
   ("ZeekygenPrevCommentFormatter".data, .ZeekygenPrevCommentFormatter)]

/-- Look a class up by name among the module's classes
(`inspect.getmembers` with the name predicate of `_find_class`). -/
def findClassByName : List (List Char × FClass) → List Char → Option FClass
  | [], _ => none
  | (k, c) :: rest, q => if k = q then some c else findClassByName rest q

/-- A `NodeMapper` state: its `_map` dictionary.  Lookup finds the most
recent binding first, matching dictionary-assignment semantics. -/
def NMap : Type := List (String × FClass)

/-- Dictionary lookup in `NodeMapper._map`. -/
def nmapLookup : List (String × FClass) → String → Option FClass
  | [], _ => none
  | (k, c) :: rest, q => if k = q then some c else nmapLookup rest q

/-- `NodeMapper.register` / dictionary assignment `_map[name] = klass`. -/
def nmapRegister (m : List (String × FClass)) (k : String) (c : FClass) :
    List (String × FClass) := (k, c) :: m

/-- `NodeMapper.get(symbol_name)`: explicit mapping first, then
`_find_class` (which caches a convention-derived match in `_map`), then the
`Formatter` fallback.  Returns the class and the possibly updated map. -/
def NodeMapper.get (m : List (String × FClass)) (symbol : String) :
    FClass × List (String × FClass) :=
  match nmapLookup m symbol with
  | some c => (c, m)
  | none =>
    let m2 := match findClassByName knownClasses (derivedName symbol) with
      | some c => nmapRegister m symbol c
      | none => m
    match nmapLookup m2 symbol with
    | some c => (c, m2)
    | none => (.Formatter, m2)

/-- The explicit registrations performed at the bottom of `formatter.py`. -/
def initialMap : List (String × FClass) :=
  nmapRegister (nmapRegister (nmapRegister (nmapRegister (nmapRegister
  (nmapRegister (nmapRegister (nmapRegister (nmapRegister (nmapRegister
  (nmapRegister (nmapRegister (nmapRegister []
    "const_decl" .GlobalDeclFormatter)
    "global_decl" .GlobalDeclFormatter)
    "option_decl" .GlobalDeclFormatter)
    "redef_decl" .GlobalDeclFormatter)
    "func" .FuncHdrVariantFormatter)
    "hook" .FuncHdrVariantFormatter)
    "event" .FuncHdrVariantFormatter)
    "capture" .SpaceSeparatedFormatter)
    "attr_list" .SpaceSeparatedFormatter)
    "interval" .SpaceSeparatedFormatter)
    "zeekygen_head_comment" .ZeekygenCommentFormatter)
    "zeekygen_next_comment" .ZeekygenCommentFormatter)
    "nullnode" .NullFormatter

/-- `Formatter.lookup(node)`: token (non-named) nodes always resolve to the
plain `Formatter`; named nodes go through `MAP.get`. -/
def Formatter.lookupClass (isNamed : Bool) (typ : String)
    (m : List (String × FClass)) : FClass × List (String × FClass) :=
  if !isNamed then (.Formatter, m) else NodeMapper.get m typ

/-- The pure resolution `NodeMapper.get` computes over the module's initial
map (the cache only memoizes this value, as the registry theorems show). -/
def pureResolve (typ : String) : FClass :=
  match nmapLookup initialMap typ with
  | some c => c
  | none =>
    match findClassByName knownClasses (derivedName typ) with
    | some c => c
    | none => .Formatter

/-! ### Syntax-tree nodes and the dispatcher traversal (formatter.py) -/

/-- A syntax-tree node as the formatter consumes it.  The node class itself
lives outside the verified sources; per the spec's SyntaxNode contract a node
carries its kind string, the named/token flag, its source bytes, its ordered
grammar-significant children, and the ordered "extra" (comment/newline) CST
siblings attached before and after it. -/
inductive Node where
  | mk (typ : String) (isNamed : Bool) (content : List Nat)
       (children : List Node) (prevCst : List Node) (nextCst : List Node)

/-- The node's tree-sitter kind string. -/
def Node.typ : Node → String | .mk t _ _ _ _ _ => t
/-- Whether the node is a named (grammar) node rather than a literal token. -/
def Node.isNamed : Node → Bool | .mk _ b _ _ _ _ => b
/-- The source bytes of the node's span (`Formatter.content()`). -/
def Node.content : Node → List Nat | .mk _ _ c _ _ _ => c
/-- The ordered grammar-significant (AST) children. -/
def Node.children : Node → List Node | .mk _ _ _ cs _ _ => cs
/-- The "extra" CST siblings formatted immediately before this node. -/
def Node.prevCst : Node → List Node | .mk _ _ _ _ p _ => p
/-- The "extra" CST siblings formatted immediately after this node. -/
def Node.nextCst : Node → List Node | .mk _ _ _ _ _ n => n

/-- `Formatter.lookup` as the traversal uses it: token nodes resolve to the
plain `Formatter`, named nodes to the registry's resolution. -/
def lookupF (n : Node) : FClass :=
  if !n.isNamed then .Formatter else pureResolve n.typ

/-- `Formatter._write(data)` (for byte data): when not writing a newline and
the stream is at column zero, first write the tab indentation and the
space alignment, then strip the data's leading whitespace; finally hand the
data to `OutputStream.write` together with the formatter's hints. -/
def fmtWrite (indent : Nat) (h : Hints) (data : List Nat) (st : OutputStream) :
    OutputStream :=
  if !(data.head? == some 10) && st.col == 0 then
    ((st.writeTabIndent indent h).writeSpaceAlign h).write (lstripB data) h
  else st.write data h

mutual

/-- `Formatter._format_child_impl` followed by `formatter.format()`: look up
the child's class and format it.  Only the plain `Formatter` behavior (the
generic default the claims are about) is embedded; every other class is
delegated to the `other` parameter, an arbitrary behavior the theorems
quantify over. -/
def formatDispatch (other : FClass → Node → Nat → Hints → OutputStream → OutputStream)
    (n : Node) (indent : Nat) (h : Hints) (st : OutputStream) : OutputStream :=
  match lookupF n with
  | .Formatter => formatDefault other n indent h st
  | c => other c n indent h st
termination_by (sizeOf n, 1)
decreasing_by
  all_goals simp_wf
  all_goals first
    | (apply Prod.Lex.right; omega)
    | (apply Prod.Lex.left; cases n; simp_all [Node.children] <;> omega)
    | (apply Prod.Lex.left; cases c; simp_all [Node.prevCst, Node.nextCst] <;> omega)
    | (apply Prod.Lex.left; omega)
    | (apply Prod.Lex.left; simp; omega)
    | omega

/-- `Formatter.format` (the generic default): with children, run
`_format_children()` (no separator); as a leaf, `_format_token()` writes the
node's source bytes. -/
def formatDefault (other : FClass → Node → Nat → Hints → OutputStream → OutputStream)
    (n : Node) (indent : Nat) (h : Hints) (st : OutputStream) : OutputStream :=
  match hc : n.children with
  | [] => fmtWrite indent h n.content st
  | c :: rest => formatChildrenRest other rest indent (formatChild other false c indent h st)
termination_by (sizeOf n, 0)
decreasing_by
  all_goals simp_wf
  all_goals first
    | (apply Prod.Lex.right; omega)
    | (apply Prod.Lex.left; cases n; simp_all [Node.children] <;> omega)
    | (apply Prod.Lex.left; cases c; simp_all [Node.prevCst, Node.nextCst] <;> omega)
    | (apply Prod.Lex.left; omega)
    | (apply Prod.Lex.left; simp; omega)
    | omega

/-- `Formatter._format_child(indent=flag, hints=h)` applied to the child node
`c` that `_next_child` returned: format the child's preceding extras, then
the child itself with the hints, then its trailing extras, all at the same
indentation. -/
def formatChild (other : FClass → Node → Nat → Hints → OutputStream → OutputStream)
    (indentFlag : Bool) (c : Node) (indent : Nat) (h : Hints) (st : OutputStream) :
    OutputStream :=
  let ci := indent + (if indentFlag then 1 else 0)
  formatExtras other c.nextCst ci
    (formatDispatch other c ci h (formatExtras other c.prevCst ci st))
termination_by (sizeOf c, 3)
decreasing_by
  all_goals simp_wf
  all_goals first
    | (apply Prod.Lex.right; omega)
    | (apply Prod.Lex.left; cases n; simp_all [Node.children] <;> omega)
    | (apply Prod.Lex.left; cases c; simp_all [Node.prevCst, Node.nextCst] <;> omega)
    | (apply Prod.Lex.left; omega)
    | (apply Prod.Lex.left; simp; omega)
    | omega

/-- The loops over `node.prev_cst_siblings` / `node.next_cst_siblings` in
`_format_child`: each extra is formatted via `_format_child_impl(child,
indent)` with no hints. -/
def formatExtras (other : FClass → Node → Nat → Hints → OutputStream → OutputStream) :
    List Node → Nat → OutputStream → OutputStream
  | [], _, st => st
  | x :: xs, ci, st => formatExtras other xs ci (formatDispatch other x ci noHints st)
termination_by l _ _ => (sizeOf l, 2)
decreasing_by
  all_goals simp_wf
  all_goals first
    | (apply Prod.Lex.right; omega)
    | (apply Prod.Lex.left; cases n; simp_all [Node.children] <;> omega)
    | (apply Prod.Lex.left; cases c; simp_all [Node.prevCst, Node.nextCst] <;> omega)
    | (apply Prod.Lex.left; omega)
    | (apply Prod.Lex.left; simp; omega)
    | omega

/-- The `while self._children_remaining()` loop of `_format_children` with
`sep=None` (the generic default's call): each remaining child is formatted
with no hints and nothing written in between. -/
def formatChildrenRest (other : FClass → Node → Nat → Hints → OutputStream → OutputStream) :
    List Node → Nat → OutputStream → OutputStream
  | [], _, st => st
  | c :: rest, indent, st =>
      formatChildrenRest other rest indent (formatChild other false c indent noHints st)
termination_by l _ _ => (sizeOf l, 2)
decreasing_by
  all_goals simp_wf
  all_goals first
    | (apply Prod.Lex.right; omega)
    | (apply Prod.Lex.left; cases n; simp_all [Node.children] <;> omega)
    | (apply Prod.Lex.left; cases c; simp_all [Node.prevCst, Node.nextCst] <;> omega)
    | (apply Prod.Lex.left; omega)
    | (apply Prod.Lex.left; simp; omega)
    | omega

end

/-! ### `NlFormatter` (blank-line collapsing) -/

/-- The view of a CST node that `NlFormatter.format` consults on its
neighbors: whether it is a newline node (`is_nl`) and its `token()` string.
The node class is external to the verified sources; this follows the spec's
SyntaxNode contract. -/
structure CstN where
  isNl : Bool
  tok : Option String
deriving DecidableEq, Repr

/-- `NlFormatter.format` for a newline node, with the CST siblings before it
(`prev`, nearest first) and after it (`next`, nearest first): decides whether
the node performs its `_write_nl(force=True)` call, i.e. emits a blank
line.  Mirrors formatter.py lines 1098-1118. -/
def nlEmit (prev next : List CstN) : Bool :=
  match next.head? with
  | none => false
  | some nx =>
    if nx.isNl then false
    else if nx.tok == some "\x7d" then false
    else
      match prev.head? with
      | none => false
      | some p =>
        if p.isNl then
          match (prev.dropWhile fun c => c.isNl).head? with
          | some q => !(q.tok == some "\x7b")
          | none => false
        else false

/-- Count the blank-line emissions of the newline nodes in `rest`, formatted
in order within a sibling sequence: `prev` holds the siblings already passed
(nearest first) and `after` the siblings following `rest`. -/
def emitsIn (after : List CstN) : List CstN → List CstN → Nat
  | _, [] => 0
  | prev, n :: rs =>
      (if nlEmit prev (rs ++ after) then 1 else 0) + emitsIn after (n :: prev) rs

/-! ### Child accessors (`_get_child` and friends, formatter.py) -/

/-- The view of a child node the accessors project: kind string and
named/token flag.  `name()`/`token()` are modelled from the spec: per the
accessor docstrings, `name()` yields the kind for named nodes only and
`token()` yields the token text for token nodes only, else `None`. -/
structure NdL where
  typ : String
  isNamed : Bool
deriving DecidableEq, Repr

/-- Modelled from the spec: `node.name()` of the external node class —
the kind for a named node, `None` otherwise. -/
def NdL.nameQ (n : NdL) : Option String := if n.isNamed then some n.typ else none

/-- Modelled from the spec: `node.token()` of the external node class —
the token text (its kind string) for a token node, `None` otherwise. -/
def NdL.tokenQ (n : NdL) : Option String := if !n.isNamed then some n.typ else none

/-- Python list indexing `l[i]` wrapped in `try/except IndexError`:
negative indices count from the end, and any out-of-range index yields
`none` instead of an exception. -/
def pyIndex (l : List NdL) (i : Int) : Option NdL :=
  if 0 ≤ i then l.get? i.toNat
  else if -i ≤ (l.length : Int) then l.get? (l.length - (-i).toNat)
  else none

/-- `Formatter._get_child(offset, absolute)` over the node's children and the
current child cursor `cidx`. -/
def getChild (children : List NdL) (cidx : Nat) (offset : Int) (absolute : Bool) :
    Option NdL :=
  pyIndex children ((if absolute then 0 else (cidx : Int)) + offset)

/-- `Formatter._get_child_type`: the `.type` of the child, with the
`AttributeError` on a missing child caught as `None`. -/
def getChildType (children : List NdL) (cidx : Nat) (offset : Int) (absolute : Bool) :
    Option String :=
  (getChild children cidx offset absolute).map NdL.typ

/-- `Formatter._get_child_name`: `None` when the child is missing or is not a
named node. -/
def getChildName (children : List NdL) (cidx : Nat) (offset : Int) (absolute : Bool) :
    Option String :=
  (getChild children cidx offset absolute).bind NdL.nameQ

/-- `Formatter._get_child_token`: `None` when the child is missing or is not
a token node. -/
def getChildToken (children : List NdL) (cidx : Nat) (offset : Int) (absolute : Bool) :
    Option String :=
  (getChild children cidx offset absolute).bind NdL.tokenQ

/-- `Formatter._next_child`: return the current child and advance the cursor;
past the end the `IndexError` is caught and `None` returned with the cursor
unchanged. -/
def nextChild (children : List NdL) (cidx : Nat) : Option NdL × Nat :=
  match children.get? cidx with
  | some n => (some n, cidx + 1)
  | none => (none, cidx)

/-! ### Derived notions used by the theorem statements -/

/-- A content (non-pure-whitespace) chunk. -/
def isContentChunk (c : Chunk) : Bool := !blankB c.data

/-- A byte a line break inserts: newline, tab, or space. -/
def isBreakByte (b : Nat) : Bool := b == 10 || b == 9 || b == 32

/-- Whether an event is a line-break (newline) event. -/
def isNlEv (e : Ev) : Bool := match e with | .nlEv _ => true | _ => false

/-- The advisory-branch newline event. -/
def advEv : Ev := .nlEv .advisory
/-- The automatic-branch newline event. -/
def autoEv : Ev := .nlEv .auto

/-- True iff no automatic break event occurs after the first advisory break
event in the list. -/
def noAutoAfterAdv : List Ev → Bool
  | [] => true
  | e :: rest => if e = advEv then decide (autoEv ∉ rest) else noAutoAfterAdv rest

/-- The hinted length of a pending chunk group: zero-width chunks count as
zero, every other chunk counts its raw byte length. -/
def pendLen (l : List Chunk) : Int :=
  (l.map fun c => if c.hints.zeroWidth then 0 else (c.data.length : Int)).sum

/-- A chunk ending in the line terminator carries no space or tab directly
before that terminator. -/
def noTrailWsChunk (c : Chunk) : Bool :=
  if endsNL c.data then
    match c.data.reverse with
    | 10 :: b :: _ => !isWSb b
    | _ => true
  else true

/-- A physical line (a `splitKeep` piece of the sink bytes) that ends in
whitespace directly before its newline terminator. -/
def lineHasTrailWs (l : List Nat) : Bool :=
  match l.reverse with
  | 10 :: b :: _ => isWSb b
  | _ => false

/-! ### Concrete program inputs used by counterexamples and witnesses -/

/-- A trivial behavior for the formatter classes the claims do not touch. -/
def otherUnit : FClass → Node → Nat → Hints → OutputStream → OutputStream :=
  fun _ _ _ _ st => st

/-- A token leaf with source text `a`. -/
def leafA : Node := .mk "a" false [97] [] [] []
/-- A token leaf with source text `b`. -/
def leafB : Node := .mk "b" false [98] [] [] []
/-- A named node of an unmapped kind (hence resolved to the generic default
formatter) with the two token children `a` and `b`. -/
def parentN : Node := .mk "foo_bar_unknown" true [97, 98] [leafA, leafB] [] []

/-- The `GOOD_AFTER_LB` hint set. -/
def gAfterHints : Hints := ⟨true, false, false, false⟩

/-- Drive the output stream with a line whose only varying part is the length
`k` of a comment chunk hinted zero-width: sixty `a` bytes, a space, `&&`
hinted `GOOD_AFTER_LB`, a space, `bb`, a `k`-byte comment, a newline. -/
def commentLenRun (k : Nat) : OutputStream :=
  ((((((ost0.write (List.replicate 60 97) noHints).write
    [32] noHints).write
    [38, 38] gAfterHints).write
    [32] noHints).write
    [98, 98] noHints).write
    (List.replicate k 35) (commentInitHints noHints)).write
    [10] noHints

/-- Drive the output stream with the writes `b"a"`, `b" "`, `b"\n"`
(a token, then a space chunk, then a bare line terminator). -/
def spaceBeforeNlRun : OutputStream :=
  ((ost0.write [97] noHints).write [32] noHints).write [10] noHints

/-! ## Theorems -/

theorem chunksOf_append (a b : List Ev) : chunksOf (a ++ b) = chunksOf a ++ chunksOf b := by
  simp [chunksOf]

theorem chunksOf_mapChunk (l : List Chunk) : chunksOf (l.map .chunkEv) = l := by
  induction l with
  | nil => rfl
  | cons c r ih => simp [chunksOf] at ih ⊢; exact ih

theorem chunksOf_break (k : BrkKind) (t s : Nat) :
    chunksOf [.nlEv k, .tabsEv t, .spacesEv s] = [] := rfl

theorem popBlanksGo_fst (l : List Chunk) (n : Int) :
    (popBlanksGo l n).1 = l.dropWhile fun c => blankB c.data := by
  induction l generalizing n with
  | nil => rfl
  | cons c r ih =>
    by_cases h : blankB c.data <;> simp [popBlanksGo, h, List.dropWhile_cons, ih]

theorem popBlanksGo_snd (l : List Chunk) (n : Int) :
    (popBlanksGo l n).2 =
      n - ((l.takeWhile fun c => blankB c.data).map fun c => (c.data.length : Int)).sum := by
  induction l generalizing n with
  | nil => simp [popBlanksGo]
  | cons c r ih =>
    by_cases h : blankB c.data <;>
      simp [popBlanksGo, h, List.takeWhile_cons, ih] <;> ring

theorem filterContent_dropBlank (l : List Chunk) :
    ((l.dropWhile fun c => blankB c.data).filter isContentChunk) =
      l.filter isContentChunk := by
  induction l with
  | nil => rfl
  | cons c r ih =>
    by_cases h : blankB c.data <;>
      simp [List.dropWhile_cons, h, List.filter_cons, isContentChunk, ih]

theorem flushTbd_evs (st : FlushSt) :
    chunksOf (flushTbd st).evs = chunksOf st.evs ++ st.tbd ∧ (flushTbd st).tbd = [] := by
  refine ⟨?_, rfl⟩
  simp [flushTbd, chunksOf_append, chunksOf_mapChunk]

theorem flushBreak_evs_tbd (items tab col : Nat) (out : Chunk) (st1 : FlushSt) :
    ((flushBreakPhase items tab col out st1).evs = st1.evs
        ∧ (flushBreakPhase items tab col out st1).tbd = st1.tbd)
    ∨ ((flushBreakPhase items tab col out st1).evs
          = st1.evs ++ [.nlEv (BrkKind.advisory), .tabsEv tab, .spacesEv SPACE_INDENT]
        ∧ (flushBreakPhase items tab col out st1).tbd
          = st1.tbd.dropWhile fun c => blankB c.data)
    ∨ ((flushBreakPhase items tab col out st1).evs
          = st1.evs ++ [.nlEv (BrkKind.auto), .tabsEv tab, .spacesEv SPACE_INDENT]
        ∧ (flushBreakPhase items tab col out st1).tbd
          = st1.tbd.dropWhile fun c => blankB c.data) := by
  unfold flushBreakPhase
  by_cases h1 : (out.hints.goodAfterLB && decide (col > MAX_LINE_LEN)) = true
  · refine Or.inr (Or.inl ?_)
    simp [h1, writeLinebreak, popBlanksGo_fst]
  · by_cases h2 : (!st1.usingBreakHints
        && decide (st1.colFlushed + st1.tbdLen > (MAX_LINE_LEN : Int))
        && decide (items ≥ MIN_LINE_ITEMS)) = true
    · refine Or.inr (Or.inr ?_)
      simp [h1, h2, writeLinebreak, popBlanksGo_fst]
    · refine Or.inl ?_
      simp [h1, h2]

theorem flushStep_chunks (items tab col : Nat) (st : FlushSt) (out : Chunk)
    (nxt : Option Chunk) :
    List.Sublist
      (chunksOf (flushStep items tab col st out nxt).evs ++ (flushStep items tab col st out nxt).tbd)
      (chunksOf st.evs ++ st.tbd ++ [out])
    ∧ (chunksOf (flushStep items tab col st out nxt).evs ++ (flushStep items tab col st out nxt).tbd).filter isContentChunk
        = (chunksOf st.evs ++ st.tbd ++ [out]).filter isContentChunk := by
  unfold flushStep
  by_cases hc : flushContinue st out nxt
  · simp only [hc, if_true]
    rw [← List.append_assoc]
    exact ⟨List.Sublist.refl _, rfl⟩
  · simp only [hc, if_false, Bool.false_eq_true]
    rcases flushBreak_evs_tbd items tab col out
        { st with tbd := st.tbd ++ [out], tbdLen := st.tbdLen + hintedLen out }
      with ⟨he, ht⟩ | ⟨he, ht⟩ | ⟨he, ht⟩
    · simp only [flushTbd, chunksOf_append, chunksOf_mapChunk, he, ht,
        chunksOf_break, List.append_nil, List.append_assoc, List.nil_append]
      rw [← List.append_assoc]
      exact ⟨List.Sublist.refl _, trivial⟩
    · simp only [flushTbd, chunksOf_append, chunksOf_mapChunk, he, ht,
        chunksOf_break, List.append_nil, List.append_assoc, List.nil_append]
      constructor
      · refine List.Sublist.append_left ?_ _
        exact List.dropWhile_sublist _
      · rw [List.filter_append, List.filter_append, filterContent_dropBlank]
    · simp only [flushTbd, chunksOf_append, chunksOf_mapChunk, he, ht,
        chunksOf_break, List.append_nil, List.append_assoc, List.nil_append]
      constructor
      · refine List.Sublist.append_left ?_ _
        exact List.dropWhile_sublist _
      · rw [List.filter_append, List.filter_append, filterContent_dropBlank]

theorem flushLoop_chunks (items tab col : Nat) (buf : List Chunk) :
    ∀ st : FlushSt,
    List.Sublist
      (chunksOf (flushLoop items tab col st buf).evs ++ (flushLoop items tab col st buf).tbd)
      (chunksOf st.evs ++ st.tbd ++ buf)
    ∧ (chunksOf (flushLoop items tab col st buf).evs ++ (flushLoop items tab col st buf).tbd).filter isContentChunk
        = (chunksOf st.evs ++ st.tbd ++ buf).filter isContentChunk := by
  induction buf with
  | nil =>
    intro st
    rw [List.append_nil]
    exact ⟨List.Sublist.refl _, rfl⟩
  | cons out rest ih =>
    intro st
    have hstep := flushStep_chunks items tab col st out rest.head?
    have hih := ih (flushStep items tab col st out rest.head?)
    rw [flushLoop]
    constructor
    · refine hih.1.trans ?_
      have := hstep.1.append_right rest
      rw [List.append_assoc] at this ⊢
      simpa using this
    · rw [hih.2, List.filter_append, hstep.2, ← List.filter_append]
      rw [List.append_assoc, List.append_assoc, List.append_assoc]
      simp

/-- Claim C1: flushing a buffered logical line writes the data of the
buffered chunks as a subsequence of the buffer (never reordering or
duplicating a chunk), drops only pure-whitespace chunks (the
non-whitespace content chunks written equal exactly those buffered, in
order), and everything else the flush writes is newline, tab or space
bytes inserted between the chunks. -/
theorem claim1_flush_preserves_chunk_order (buf : List Chunk) (tab col : Nat) :
    List.Sublist (chunksOf (flushEventsSt buf tab col).evs) buf
    ∧ (chunksOf (flushEventsSt buf tab col).evs).filter isContentChunk
        = buf.filter isContentChunk
    ∧ ∀ e ∈ (flushEventsSt buf tab col).evs,
        (∃ c, e = Ev.chunkEv c) ∨ (flattenEv e).all isBreakByte := by
  have hloop := flushLoop_chunks (lineItemsOf buf) tab col buf ⟨0, [], 0, false, []⟩
  have hfin := flushTbd_evs (flushLoop (lineItemsOf buf) tab col ⟨0, [], 0, false, []⟩ buf)
  have hevs : chunksOf (flushEventsSt buf tab col).evs
      = chunksOf (flushLoop (lineItemsOf buf) tab col ⟨0, [], 0, false, []⟩ buf).evs
        ++ (flushLoop (lineItemsOf buf) tab col ⟨0, [], 0, false, []⟩ buf).tbd := by
    simpa [flushEventsSt] using hfin.1
  have hinit : chunksOf (⟨0, [], 0, false, []⟩ : FlushSt).evs
      ++ (⟨0, [], 0, false, []⟩ : FlushSt).tbd ++ buf = buf := by
    simp [chunksOf]
  refine ⟨?_, ?_, ?_⟩
  · rw [hevs]
    have := hloop.1
    rwa [hinit] at this
  · rw [hevs]
    have := hloop.2
    rwa [hinit] at this
  · intro e _
    cases e with
    | chunkEv c => exact Or.inl ⟨c, rfl⟩
    | nlEv k => exact Or.inr rfl
    | tabsEv n =>
      refine Or.inr ?_
      simp only [flattenEv, List.all_eq_true]
      intro b hb
      rw [List.eq_of_mem_replicate hb]
      rfl
    | spacesEv n =>
      refine Or.inr ?_
      simp only [flattenEv, List.all_eq_true]
      intro b hb
      rw [List.eq_of_mem_replicate hb]
      rfl

/-- Witness for claim C1 at a concrete one-chunk line. -/
theorem claim1_witness :
    List.Sublist (chunksOf (flushEventsSt [⟨[97], noHints⟩] 0 1).evs) [⟨[97], noHints⟩]
    ∧ (chunksOf (flushEventsSt [⟨[97], noHints⟩] 0 1).evs).filter isContentChunk
        = List.filter isContentChunk [⟨[97], noHints⟩] :=
  ⟨(claim1_flush_preserves_chunk_order [⟨[97], noHints⟩] 0 1).1,
   (claim1_flush_preserves_chunk_order [⟨[97], noHints⟩] 0 1).2.1⟩

theorem adv_not_mem_mapChunk (l : List Chunk) : advEv ∉ l.map Ev.chunkEv := by
  simp [advEv, List.mem_map]

theorem auto_not_mem_mapChunk (l : List Chunk) : autoEv ∉ l.map Ev.chunkEv := by
  simp [autoEv, List.mem_map]

theorem noAutoAfterAdv_of_not_mem (l : List Ev) (h : advEv ∉ l) :
    noAutoAfterAdv l = true := by
  induction l with
  | nil => rfl
  | cons e rest ih =>
    rw [noAutoAfterAdv]
    rw [List.mem_cons, not_or] at h
    rw [if_neg (fun he => h.1 he.symm)]
    exact ih h.2

theorem noAutoAfterAdv_append (xs ys : List Ev) (hx : noAutoAfterAdv xs = true)
    (hy1 : autoEv ∉ ys) (hy2 : noAutoAfterAdv ys = true) :
    noAutoAfterAdv (xs ++ ys) = true := by
  induction xs with
  | nil => simpa using hy2
  | cons e rest ih =>
    rw [List.cons_append, noAutoAfterAdv]
    rw [noAutoAfterAdv] at hx
    by_cases he : e = advEv
    · rw [if_pos he] at hx ⊢
      rw [decide_eq_true_iff] at hx ⊢
      intro hmem
      rcases List.mem_append.1 hmem with h | h
      · exact hx h
      · exact hy1 h
    · rw [if_neg he] at hx ⊢
      exact ih hx

/-- The invariant behind claim C2: no auto break after the first advisory
break among the events, the `using_break_hints` flag records whether an
advisory break event occurred, and no advisory break occurs at all when the
line is within the width budget. -/
def C2Inv (col : Nat) (st : FlushSt) : Prop :=
  noAutoAfterAdv st.evs = true
  ∧ (st.usingBreakHints = false → advEv ∉ st.evs)
  ∧ (col ≤ MAX_LINE_LEN → advEv ∉ st.evs)

theorem flushTbd_c2inv (col : Nat) (st : FlushSt) (h : C2Inv col st) :
    C2Inv col (flushTbd st) := by
  obtain ⟨h1, h2, h3⟩ := h
  refine ⟨?_, ?_, ?_⟩
  · exact noAutoAfterAdv_append _ _ h1 (auto_not_mem_mapChunk _)
      (noAutoAfterAdv_of_not_mem _ (adv_not_mem_mapChunk _))
  · intro hf
    simp only [flushTbd] at hf ⊢
    rw [List.mem_append, not_or]
    exact ⟨h2 hf, adv_not_mem_mapChunk _⟩
  · intro hcol
    simp only [flushTbd]
    rw [List.mem_append, not_or]
    exact ⟨h3 hcol, adv_not_mem_mapChunk _⟩

theorem flushStep_c2inv (items tab col : Nat) (st : FlushSt) (out : Chunk)
    (nxt : Option Chunk) (h : C2Inv col st) :
    C2Inv col (flushStep items tab col st out nxt) := by
  obtain ⟨h1, h2, h3⟩ := h
  unfold flushStep
  by_cases hc : flushContinue st out nxt
  · simp only [hc, if_true]
    exact ⟨h1, h2, h3⟩
  · simp only [hc, if_false, Bool.false_eq_true]
    refine flushTbd_c2inv col _ ?_
    unfold flushBreakPhase
    by_cases hA : (out.hints.goodAfterLB && decide (col > MAX_LINE_LEN)) = true
    · rw [if_pos hA]
      have hcol : ¬ col ≤ MAX_LINE_LEN := by
        rw [Bool.and_eq_true] at hA
        obtain ⟨_, hgt⟩ := hA
        rw [decide_eq_true_iff] at hgt
        omega
      refine ⟨?_, ?_, ?_⟩
      · simp only [writeLinebreak]
        refine noAutoAfterAdv_append _ _ h1 ?_ ?_
        · intro hmem
          simp [advEv, autoEv] at hmem
        · simp [noAutoAfterAdv, advEv, autoEv]
      · intro hf
        simp at hf
      · intro hcol2
        exact absurd hcol2 hcol
    · rw [if_neg hA]
      by_cases hB : (!FlushSt.usingBreakHints { st with tbd := st.tbd ++ [out], tbdLen := st.tbdLen + hintedLen out }
          && decide (FlushSt.colFlushed { st with tbd := st.tbd ++ [out], tbdLen := st.tbdLen + hintedLen out }
              + FlushSt.tbdLen { st with tbd := st.tbd ++ [out], tbdLen := st.tbdLen + hintedLen out } > (MAX_LINE_LEN : Int))
          && decide (items ≥ MIN_LINE_ITEMS)) = true
      · rw [if_pos hB]
        have hflag : st.usingBreakHints = false := by
          rw [Bool.and_eq_true, Bool.and_eq_true] at hB
          obtain ⟨⟨hu, _⟩, _⟩ := hB
          simpa using hu
        have hadv : advEv ∉ st.evs := h2 hflag
        have hnotin : advEv ∉ (writeLinebreak tab BrkKind.auto
            { st with tbd := st.tbd ++ [out], tbdLen := st.tbdLen + hintedLen out }).evs := by
          simp only [writeLinebreak, List.mem_append, not_or]
          refine ⟨hadv, ?_⟩
          simp [advEv]
        refine ⟨noAutoAfterAdv_of_not_mem _ hnotin, fun _ => hnotin, fun _ => hnotin⟩
      · rw [if_neg hB]
        exact ⟨h1, h2, h3⟩

theorem flushLoop_c2inv (items tab col : Nat) (buf : List Chunk) :
    ∀ st : FlushSt, C2Inv col st → C2Inv col (flushLoop items tab col st buf) := by
  induction buf with
  | nil => intro st h; exact h
  | cons out rest ih =>
    intro st h
    rw [flushLoop]
    exact ih _ (flushStep_c2inv items tab col st out rest.head? h)

/-- Claim C2: during a line flush, an advisory (`GOOD_AFTER_LB`) break is
taken only when the accumulated line column exceeds the 80-column budget
(within budget, no advisory break event exists), and no automatic break
event ever follows an advisory break event in the flush's writes. -/
theorem claim2_advisory_break_gating (buf : List Chunk) (tab col : Nat) :
    (col ≤ MAX_LINE_LEN → advEv ∉ (flushEventsSt buf tab col).evs)
    ∧ noAutoAfterAdv (flushEventsSt buf tab col).evs = true := by
  have hinit : C2Inv col (⟨0, [], 0, false, []⟩ : FlushSt) := by
    refine ⟨rfl, ?_, ?_⟩ <;> intro _ <;> simp
  have hloop := flushLoop_c2inv (lineItemsOf buf) tab col buf _ hinit
  have hfin := flushTbd_c2inv col _ hloop
  exact ⟨fun hcol => hfin.2.2 hcol, hfin.1⟩

/-- Witness for claim C2 at a concrete line within the width budget. -/
theorem claim2_witness :
    (advEv ∉ (flushEventsSt [⟨[97], noHints⟩, ⟨[10], noHints⟩] 0 3).evs)
    ∧ noAutoAfterAdv (flushEventsSt [⟨[97], noHints⟩, ⟨[10], noHints⟩] 0 3).evs = true := by
  have h := claim2_advisory_break_gating [⟨[97], noHints⟩, ⟨[10], noHints⟩] 0 3
  exact ⟨h.1 (by decide), h.2⟩

theorem writeLinebreak_spec (tab : Nat) (k : BrkKind) (s : FlushSt) :
    writeLinebreak tab k s =
      { colFlushed := (tab * TAB_SIZE + SPACE_INDENT : Nat),
        tbd := s.tbd.dropWhile fun c => blankB c.data,
        tbdLen := s.tbdLen
          - ((s.tbd.takeWhile fun c => blankB c.data).map fun c => (c.data.length : Int)).sum,
        usingBreakHints := s.usingBreakHints,
        evs := s.evs ++ [.nlEv k, .tabsEv tab, .spacesEv SPACE_INDENT] } := by
  simp [writeLinebreak, popBlanksGo_fst, popBlanksGo_snd]

/-- Claim C3: at an eligible join point (a non-whitespace chunk with no
`NO_LB` suppression applying), the flush takes an automatic break exactly
when the advisory branch does not fire, advisory wrapping is unused, the
flushed column plus the pending group's hinted length exceeds the 80-column
budget, and the line holds at least `MIN_LINE_ITEMS` (5) non-whitespace
chunks; and every `write_linebreak` emits a newline, one tab per indent
level and a 4-space run, resets the flushed column to that indentation
width, and drops leading pure-whitespace chunks from the pending group. -/
theorem claim3_auto_break_iff_and_effects (items tab col : Nat) (st : FlushSt)
    (out : Chunk) (nxt : Option Chunk)
    (h1 : blankB out.data = false)
    (h2 : out.hints.noLbAfter = false)
    (h3 : (nxt.map fun c => c.hints.noLbBefore).getD false = false)
    (h4 : (out.hints.noLbBefore && allBlank st.tbd) = false) :
    (∃ new : List Ev, (flushStep items tab col st out nxt).evs = st.evs ++ new
       ∧ (autoEv ∈ new ↔
            ((out.hints.goodAfterLB && decide (col > MAX_LINE_LEN)) = false
             ∧ st.usingBreakHints = false
             ∧ st.colFlushed + (st.tbdLen + hintedLen out) > (MAX_LINE_LEN : Int)
             ∧ MIN_LINE_ITEMS ≤ items)))
    ∧ (∀ (k : BrkKind) (s : FlushSt),
        writeLinebreak tab k s =
          { colFlushed := (tab * TAB_SIZE + SPACE_INDENT : Nat),
            tbd := s.tbd.dropWhile fun c => blankB c.data,
            tbdLen := s.tbdLen
              - ((s.tbd.takeWhile fun c => blankB c.data).map fun c => (c.data.length : Int)).sum,
            usingBreakHints := s.usingBreakHints,
            evs := s.evs ++ [.nlEv k, .tabsEv tab, .spacesEv SPACE_INDENT] }) := by
  refine ⟨?_, fun k s => writeLinebreak_spec tab k s⟩
  have hcont : flushContinue st out nxt = false := by
    simp [flushContinue, h1, h2, h3, h4]
  unfold flushStep
  rw [hcont]
  simp only [Bool.false_eq_true, if_false]
  by_cases hA : (out.hints.goodAfterLB && decide (col > MAX_LINE_LEN)) = true
  · refine ⟨[.nlEv BrkKind.advisory, .tabsEv tab, .spacesEv SPACE_INDENT]
        ++ (((st.tbd ++ [out]).dropWhile fun c => blankB c.data).map Ev.chunkEv), ?_, ?_⟩
    · simp [flushBreakPhase, hA, flushTbd, writeLinebreak_spec]
    · constructor
      · intro hmem
        exfalso
        rcases List.mem_append.1 hmem with hm | hm
        · simp [autoEv] at hm
        · exact auto_not_mem_mapChunk _ hm
      · intro hrhs
        rw [hA] at hrhs
        exact absurd hrhs.1 (by simp)
  · by_cases hB : (!st.usingBreakHints
        && decide (st.colFlushed + (st.tbdLen + hintedLen out) > (MAX_LINE_LEN : Int))
        && decide (items ≥ MIN_LINE_ITEMS)) = true
    · refine ⟨[.nlEv BrkKind.auto, .tabsEv tab, .spacesEv SPACE_INDENT]
          ++ (((st.tbd ++ [out]).dropWhile fun c => blankB c.data).map Ev.chunkEv), ?_, ?_⟩
      · have hB2 : (!FlushSt.usingBreakHints
              { st with tbd := st.tbd ++ [out], tbdLen := st.tbdLen + hintedLen out }
            && decide (FlushSt.colFlushed
              { st with tbd := st.tbd ++ [out], tbdLen := st.tbdLen + hintedLen out }
                + FlushSt.tbdLen
              { st with tbd := st.tbd ++ [out], tbdLen := st.tbdLen + hintedLen out }
                > (MAX_LINE_LEN : Int))
            && decide (items ≥ MIN_LINE_ITEMS)) = true := by
          simpa using hB
        simp [flushBreakPhase, hA, hB2, flushTbd, writeLinebreak_spec]
      · rw [Bool.and_eq_true, Bool.and_eq_true] at hB
        obtain ⟨⟨hu, hw⟩, hi⟩ := hB
        constructor
        · intro _
          refine ⟨by simpa using hA, by simpa using hu, ?_, ?_⟩
          · rw [decide_eq_true_iff] at hw; exact hw
          · rw [decide_eq_true_iff] at hi; exact hi
        · intro _
          exact List.mem_append.2 (Or.inl (List.mem_cons_self _ _))
    · refine ⟨((st.tbd ++ [out]).map Ev.chunkEv), ?_, ?_⟩
      · have hB2 : (!FlushSt.usingBreakHints
              { st with tbd := st.tbd ++ [out], tbdLen := st.tbdLen + hintedLen out }
            && decide (FlushSt.colFlushed
              { st with tbd := st.tbd ++ [out], tbdLen := st.tbdLen + hintedLen out }
                + FlushSt.tbdLen
              { st with tbd := st.tbd ++ [out], tbdLen := st.tbdLen + hintedLen out }
                > (MAX_LINE_LEN : Int))
            && decide (items ≥ MIN_LINE_ITEMS)) = false := by
          simpa using hB
        simp [flushBreakPhase, hA, hB2, flushTbd]
      · constructor
        · intro hmem
          exact absurd hmem (auto_not_mem_mapChunk _)
        · intro hrhs
          exfalso
          obtain ⟨_, hu, hw, hi⟩ := hrhs
          apply hB
          rw [Bool.and_eq_true, Bool.and_eq_true]
          exact ⟨⟨by simp [hu], by simpa using hw⟩, by simpa using hi⟩

/-- Witness for claim C3 at a concrete eligible join point. -/
theorem claim3_witness :
    (∃ new : List Ev,
       (flushStep 0 0 0 ⟨0, [], 0, false, []⟩ ⟨[97], noHints⟩ none).evs = [] ++ new
       ∧ (autoEv ∈ new ↔
            ((Hints.goodAfterLB noHints && decide (0 > MAX_LINE_LEN)) = false
             ∧ false = false
             ∧ (0 : Int) + ((0 : Int) + hintedLen ⟨[97], noHints⟩) > (MAX_LINE_LEN : Int)
             ∧ MIN_LINE_ITEMS ≤ 0)))
    ∧ (∀ (k : BrkKind) (s : FlushSt),
        writeLinebreak 0 k s =
          { colFlushed := (0 * TAB_SIZE + SPACE_INDENT : Nat),
            tbd := s.tbd.dropWhile fun c => blankB c.data,
            tbdLen := s.tbdLen
              - ((s.tbd.takeWhile fun c => blankB c.data).map fun c => (c.data.length : Int)).sum,
            usingBreakHints := s.usingBreakHints,
            evs := s.evs ++ [.nlEv k, .tabsEv 0, .spacesEv SPACE_INDENT] }) :=
  claim3_auto_break_iff_and_effects 0 0 0 ⟨0, [], 0, false, []⟩ ⟨[97], noHints⟩ none
    (by decide) (by decide) (by decide) (by decide)

/-- Counterexample to claim C4: two write sequences that differ only in the
length of one zero-width comment chunk (1 byte versus 30 bytes).  With the
long comment the line's column counter exceeds the budget and the flush
takes an advisory wrap; with the short comment it takes no line break at
all.  So a comment's length does cause a wrap decision. -/
theorem claim4_counterexample :
    advEv ∈ (commentLenRun 30).evs
    ∧ (commentLenRun 1).evs.any isNlEv = false := by
  decide

theorem pendLen_append (a b : List Chunk) :
    pendLen (a ++ b) = pendLen a + pendLen b := by
  simp [pendLen, hintedLen]

theorem flushStep_pendLen (items tab col : Nat) (st : FlushSt) (out : Chunk)
    (nxt : Option Chunk) (h : st.tbdLen = pendLen st.tbd) :
    (flushStep items tab col st out nxt).tbdLen
      = pendLen (flushStep items tab col st out nxt).tbd := by
  unfold flushStep
  by_cases hc : flushContinue st out nxt
  · simp only [hc, if_true]
    show st.tbdLen + hintedLen out = pendLen (st.tbd ++ [out])
    rw [h, pendLen_append]
    simp [pendLen, hintedLen]
  · simp only [hc, if_false, Bool.false_eq_true]
    show (0 : Int) = pendLen []
    simp [pendLen]

/-- The amended claim C4: at every point of the flush loop, the pending
length `tbd_len` that the automatic break decision compares against the
width budget equals the hinted length of the pending group, in which
zero-width chunks (comments — their formatters always attach the hint)
contribute zero; the advisory path, by contrast, consults the stream column
`_col`, which counts every chunk's raw bytes (see the counterexample). -/
theorem claim4_zero_width_pending_len (items tab col : Nat) (pre : List Chunk) :
    ((flushLoop items tab col ⟨0, [], 0, false, []⟩ pre).tbdLen
      = pendLen (flushLoop items tab col ⟨0, [], 0, false, []⟩ pre).tbd)
    ∧ (∀ c : Chunk, c.hints.zeroWidth = true → hintedLen c = 0)
    ∧ (∀ h : Hints, (commentInitHints h).zeroWidth = true) := by
  refine ⟨?_, ?_, ?_⟩
  · have main : ∀ (l : List Chunk) (st : FlushSt), st.tbdLen = pendLen st.tbd →
        (flushLoop items tab col st l).tbdLen = pendLen (flushLoop items tab col st l).tbd := by
      intro l
      induction l with
      | nil => intro st h; exact h
      | cons out rest ih =>
        intro st h
        rw [flushLoop]
        exact ih _ (flushStep_pendLen items tab col st out rest.head? h)
    exact main pre _ (by simp [pendLen])
  · intro c hz
    simp [hintedLen, hz]
  · intro h
    rfl

/-- Witness for claim C4's amended theorem at a concrete comment chunk. -/
theorem claim4_witness : hintedLen ⟨[35, 35], commentInitHints noHints⟩ = 0 :=
  (claim4_zero_width_pending_len 0 0 0 []).2.1 ⟨[35, 35], commentInitHints noHints⟩ (by decide)

/-- Counterexample to claim C7: writing the token `a`, then a lone space
chunk, then a bare newline chunk makes the sink receive `a \n` — a
physical line ending in a space before its terminator.  The rstrip in
`write` only fires when the whitespace and the terminator arrive in the
same data, and the flush writes deferred whitespace chunks before a
standalone terminator chunk. -/
theorem claim7_counterexample :
    (splitKeep (sinkBytes spaceBeforeNlRun)).any lineHasTrailWs = true
    ∧ sinkBytes spaceBeforeNlRun = [97, 32, 10] := by
  decide

theorem dropWhile_head_false (p : Nat → Bool) (l : List Nat) (b : Nat) (t : List Nat)
    (h : l.dropWhile p = b :: t) : p b = false := by
  induction l with
  | nil => simp at h
  | cons a r ih =>
    rw [List.dropWhile_cons] at h
    by_cases ha : p a
    · rw [if_pos ha] at h
      exact ih h
    · rw [if_neg ha] at h
      cases h
      simpa using ha

theorem noTrail_of_written_piece (h : Hints) (piece : List Nat) :
    noTrailWsChunk ⟨normPiece piece, h⟩ = true := by
  unfold normPiece
  by_cases he : endsNL piece
  · rw [if_pos he]
    have hend : endsNL (rstripB piece ++ NLB) = true := by
      simp [endsNL, NLB]
    have hrev : (rstripB piece ++ NLB).reverse = 10 :: piece.reverse.dropWhile isWSb := by
      simp [rstripB, NLB]
    unfold noTrailWsChunk
    simp only
    rw [if_pos hend, hrev]
    rcases hd : piece.reverse.dropWhile isWSb with _ | ⟨b, t⟩
    · rfl
    · have hb : isWSb b = false := dropWhile_head_false isWSb piece.reverse b t hd
      simp [hb]
  · rw [if_neg he]
    unfold noTrailWsChunk
    simp only
    rw [if_neg (by simpa using he)]

theorem writeChunkStep_inv (h : Hints) (st : OutputStream) (piece : List Nat)
    (hInv : ∀ c ∈ st.linebuffer, noTrailWsChunk c = true) :
    ∀ c ∈ (writeChunkStep h st piece).linebuffer, noTrailWsChunk c = true := by
  intro c hc
  simp only [writeChunkStep] at hc
  split at hc
  · simp [OutputStream.flushLine] at hc
  · simp only at hc
    rcases List.mem_append.1 hc with hm | hm
    · exact hInv c hm
    · rcases List.mem_singleton.1 hm with rfl
      exact noTrail_of_written_piece h piece

/-- The amended claim C7: the stream's own stripping guarantee is
per-chunk — every chunk the writer buffers that contains its line
terminator has been stripped of whitespace directly before that
terminator (`write`'s rstrip), and this invariant is preserved across any
sequence of writes.  (Whitespace arriving as separate chunks directly
before a standalone terminator chunk is *not* stripped; see the
counterexample, where the sink receives a line ending in a space.) -/
theorem claim7_write_strips_with_terminator (st : OutputStream) (data : List Nat)
    (h : Hints) (hInv : ∀ c ∈ st.linebuffer, noTrailWsChunk c = true) :
    ∀ c ∈ (st.write data h).linebuffer, noTrailWsChunk c = true := by
  unfold OutputStream.write
  have main : ∀ (pieces : List (List Nat)) (s : OutputStream),
      (∀ c ∈ s.linebuffer, noTrailWsChunk c = true) →
      ∀ c ∈ (pieces.foldl (writeChunkStep h) s).linebuffer, noTrailWsChunk c = true := by
    intro pieces
    induction pieces with
    | nil => intro s hs; exact hs
    | cons p rest ih =>
      intro s hs
      rw [List.foldl_cons]
      exact ih _ (writeChunkStep_inv h s p hs)
  exact main (splitKeep data) st hInv

/-- Witness for claim C7's amended theorem at a concrete write. -/
theorem claim7_witness : noTrailWsChunk ⟨[97], noHints⟩ = true :=
  claim7_write_strips_with_terminator ost0 [97] noHints (by decide)
    ⟨[97], noHints⟩ (by decide)

/-- Counterexample to claim C5: a node resolved to the generic default
formatter with two token children `a` and `b` buffers exactly the bytes
`ab` — no space is written between consecutive children (the claim's
prediction would be `a b`, bytes `[97, 32, 98]`). -/
theorem claim5_counterexample :
    ((formatDispatch otherUnit parentN 0 noHints ost0).linebuffer.map Chunk.data).flatten
      = [97, 98]
    ∧ ([97, 98] : List Nat) ≠ [97, 32, 98] := by
  constructor
  · have hl : lookupF parentN = FClass.Formatter := by decide
    rw [formatDispatch, hl, formatDefault]
    simp only [parentN, Node.children, Node.content]
    rw [formatChildrenRest, formatChildrenRest, formatChild, formatChild]
    have hpa : Node.prevCst leafA = [] := rfl
    have hna : Node.nextCst leafA = [] := rfl
    have hpb : Node.prevCst leafB = [] := rfl
    have hnb : Node.nextCst leafB = [] := rfl
    rw [hpa, hna, hpb, hnb]
    rw [formatExtras, formatExtras, formatExtras, formatExtras]
    have hla : lookupF leafA = FClass.Formatter := by decide
    have hlb : lookupF leafB = FClass.Formatter := by decide
    have ha : leafA = Node.mk "a" false [97] [] [] [] := rfl
    have hb : leafB = Node.mk "b" false [98] [] [] [] := rfl
    rw [formatDispatch, hlb, formatDefault, formatDispatch, hla, formatDefault]
    decide
  · decide

theorem splitKeepGo_noterm (l : List Nat) : ∀ (acc : List Nat),
    (∀ x ∈ l, x ≠ 10 ∧ x ≠ 13) →
    splitKeepGo acc l = if acc ++ l = [] then [] else [acc ++ l] := by
  induction l with
  | nil => intro acc _; simp [splitKeepGo]
  | cons b rest ih =>
    intro acc hl
    have hb := hl b (List.mem_cons_self b rest)
    have hstep : splitKeepGo acc (b :: rest) = splitKeepGo (acc ++ [b]) rest := by
      rw [splitKeepGo.eq_def]
      split
      · simp_all
      · simp_all
      · simp_all
      · simp_all
      · rename_i heq
        injection heq with h1 h2
        rw [h1, h2]
    rw [hstep, ih (acc ++ [b]) (fun x hx => hl x (List.mem_cons_of_mem b hx))]
    simp

theorem endsNL_eq_false (l : List Nat) (h : ∀ x ∈ l, x ≠ 10) : endsNL l = false := by
  unfold endsNL
  rcases hg : l.getLast? with _ | b
  · rfl
  · have hb : b ∈ l := List.mem_of_mem_getLast? hg
    simp [h b hb]

/-- Writing newline-free, nonempty data at a nonzero column buffers it as a
single unmodified chunk and advances the column. -/
theorem write_single_chunk (st : OutputStream) (data : List Nat) (h : Hints)
    (hcol : st.col ≠ 0) (hdata : data ≠ [])
    (hnl : ∀ x ∈ data, x ≠ 10 ∧ x ≠ 13) :
    fmtWrite st.tabIndent h data st
      = { st with linebuffer := st.linebuffer ++ [⟨data, h⟩],
                  col := st.col + data.length } := by
  have hends : endsNL data = false := endsNL_eq_false data (fun x hx => (hnl x hx).1)
  have hw : OutputStream.write st data h
      = { st with linebuffer := st.linebuffer ++ [⟨data, h⟩],
                  col := st.col + data.length } := by
    unfold OutputStream.write splitKeep
    rw [splitKeepGo_noterm data [] hnl]
    simp only [List.nil_append, if_neg hdata]
    rw [List.foldl_cons, List.foldl_nil]
    unfold writeChunkStep normPiece
    rw [hends]
    simp only [Bool.false_eq_true, if_false]
    rw [hends]
    simp only [Bool.false_eq_true, if_false]
  have hhead : (data.head? == some 10) = false := by
    rcases data with _ | ⟨x, rest⟩
    · exact absurd rfl hdata
    · simp [(hnl x (List.mem_cons_self x rest)).1]
  unfold fmtWrite
  rw [hhead]
  simp only [Bool.not_false, Bool.true_and]
  rw [if_neg (by simpa using hcol)]
  exact hw

/-- The amended claim C5, for nodes whose kind resolves to the generic
default formatter: the dispatcher runs the default rule; with children, the
first child is visited with the formatter's own hints and each remaining
child in order with no hints and no separator written between them; a leaf's
source bytes are buffered verbatim as one chunk (stated away from the start
of a line and for terminator-free token text, where the stream applies no
indentation or line-splitting transformation). -/
theorem claim5_default_no_separator_and_verbatim_leaf
    (other : FClass → Node → Nat → Hints → OutputStream → OutputStream)
    (n : Node) (indent : Nat) (h : Hints) (st : OutputStream)
    (hlook : lookupF n = FClass.Formatter) :
    (formatDispatch other n indent h st = formatDefault other n indent h st)
    ∧ (∀ c rest, n.children = c :: rest →
        formatDefault other n indent h st
          = formatChildrenRest other rest indent (formatChild other false c indent h st))
    ∧ (n.children = [] → indent = st.tabIndent → st.col ≠ 0 → n.content ≠ [] →
        (∀ x ∈ n.content, x ≠ 10 ∧ x ≠ 13) →
        formatDefault other n indent h st
          = { st with linebuffer := st.linebuffer ++ [⟨n.content, h⟩],
                      col := st.col + n.content.length }) := by
  refine ⟨?_, ?_, ?_⟩
  · rw [formatDispatch, hlook]
  · intro c rest hch
    rw [formatDefault]
    split
    · rename_i heq
      rw [hch] at heq
      simp at heq
    · rename_i c2 rest2 heq
      rw [hch] at heq
      injection heq with h1 h2
      rw [h1, h2]
  · intro hch hind hcol hne hnl
    rw [formatDefault]
    split
    · rw [hind]
      exact write_single_chunk st n.content h hcol hne hnl
    · rename_i c2 rest2 heq
      rw [hch] at heq
      simp at heq

/-- Witness for claim C5's amended theorem: a concrete leaf written mid-line
is buffered verbatim. -/
theorem claim5_witness :
    formatDefault otherUnit leafA 0 noHints
        { col := 3, tabIndent := 0, linebuffer := [], spaceAlign := false, evs := [] }
      = { col := 4, tabIndent := 0, linebuffer := [⟨[97], noHints⟩], spaceAlign := false,
          evs := [] } := by
  have h := claim5_default_no_separator_and_verbatim_leaf otherUnit leafA 0 noHints
    { col := 3, tabIndent := 0, linebuffer := [], spaceAlign := false, evs := [] }
    (by decide)
  exact h.2.2 rfl rfl (by decide) (by decide) (by decide)

/-- Claim C10: a child visit formats the extras attached before the child,
then the child itself with the inherited hint set, then the extras attached
after it — all at the same indentation — and the extras loop passes the
empty hint set (`None` in the source) to every extra, never the child's
hints. -/
theorem claim10_hints_only_ast_child
    (other : FClass → Node → Nat → Hints → OutputStream → OutputStream)
    (indentFlag : Bool) (c : Node) (indent : Nat) (h : Hints) (st : OutputStream) :
    (formatChild other indentFlag c indent h st
      = formatExtras other c.nextCst (indent + if indentFlag then 1 else 0)
          (formatDispatch other c (indent + if indentFlag then 1 else 0) h
            (formatExtras other c.prevCst (indent + if indentFlag then 1 else 0) st)))
    ∧ (∀ (l : List Node) (ci : Nat) (s : OutputStream),
        formatExtras other l ci s
          = l.foldl (fun s2 x => formatDispatch other x ci noHints s2) s) := by
  constructor
  · rw [formatChild]
  · intro l
    induction l with
    | nil => intro ci s; rw [formatExtras, List.foldl_nil]
    | cons x xs ih =>
      intro ci s
      rw [formatExtras, List.foldl_cons]
      exact ih ci _

/-- Witness for claim C10 at a concrete child visit. -/
theorem claim10_witness :
    formatChild otherUnit false leafA 0 noHints ost0
      = formatExtras otherUnit leafA.nextCst (0 + if false then 1 else 0)
          (formatDispatch otherUnit leafA (0 + if false then 1 else 0) noHints
            (formatExtras otherUnit leafA.prevCst (0 + if false then 1 else 0) ost0)) :=
  (claim10_hints_only_ast_child otherUnit false leafA 0 noHints ost0).1

theorem nlEmit_next_nl (prev : List CstN) (n : CstN) (t : List CstN)
    (hn : n.isNl = true) : nlEmit prev (n :: t) = false := by
  simp [nlEmit, hn]

theorem nlEmit_next_nil (prev : List CstN) : nlEmit prev [] = false := rfl

theorem nlEmit_prev_allnl (prev : List CstN) (hp : ∀ x ∈ prev, x.isNl = true)
    (next : List CstN) : nlEmit prev next = false := by
  unfold nlEmit
  rcases next with _ | ⟨nx, t⟩
  · rfl
  · simp only [List.head?_cons]
    by_cases hnx : nx.isNl
    · simp [hnx]
    · rcases hprev : prev with _ | ⟨p, ps⟩
      · simp
      · have hpnl : p.isNl = true := hp p (hprev ▸ List.mem_cons_self p ps)
        have hdrop : (p :: ps).dropWhile (fun c => c.isNl) = [] := by
          rw [List.dropWhile_eq_nil_iff]
          intro x hx
          exact hp x (hprev ▸ hx)
        simp [hnx, hpnl, hdrop]

theorem emitsIn_nil_rest (after prev : List CstN) : emitsIn after prev [] = 0 := rfl

theorem emitsIn_le_one (after : List CstN) (r : List CstN)
    (hr : ∀ x ∈ r, x.isNl = true) : ∀ prev, emitsIn after prev r ≤ 1 := by
  induction r with
  | nil => intro prev; simp [emitsIn_nil_rest]
  | cons n rs ih =>
    intro prev
    rw [emitsIn]
    rcases rs with _ | ⟨n2, t⟩
    · have : emitsIn after (n :: prev) [] = 0 := rfl
      rw [this]
      split <;> omega
    · have h2 : nlEmit prev ((n2 :: t) ++ after) = false := by
        rw [List.cons_append]
        exact nlEmit_next_nl prev n2 _ (hr n2 (by simp))
      rw [h2]
      simp only [if_false, Bool.false_eq_true, Nat.zero_add]
      exact ih (fun x hx => hr x (List.mem_cons_of_mem n hx)) (n :: prev)

theorem emitsIn_zero_of_prev_allnl (after : List CstN) (r : List CstN)
    (hr : ∀ x ∈ r, x.isNl = true) : ∀ prev, (∀ x ∈ prev, x.isNl = true) →
    emitsIn after prev r = 0 := by
  induction r with
  | nil => intro prev _; rfl
  | cons n rs ih =>
    intro prev hp
    rw [emitsIn, nlEmit_prev_allnl prev hp]
    simp only [if_false, Bool.false_eq_true, Nat.zero_add]
    refine ih (fun x hx => hr x (List.mem_cons_of_mem n hx)) (n :: prev) ?_
    intro x hx
    rcases List.mem_cons.1 hx with rfl | hx2
    · exact hr x (List.mem_cons_self x rs)
    · exact hp x hx2

theorem emitsIn_zero_of_after_nil (r : List CstN) (hr : ∀ x ∈ r, x.isNl = true) :
    ∀ prev, emitsIn [] prev r = 0 := by
  induction r with
  | nil => intro prev; rfl
  | cons n rs ih =>
    intro prev
    rw [emitsIn]
    have hz : nlEmit prev (rs ++ []) = false := by
      rcases rs with _ | ⟨n2, t⟩
      · exact nlEmit_next_nil prev
      · rw [List.cons_append]
        exact nlEmit_next_nl prev n2 _ (hr n2 (by simp))
    rw [hz]
    simp only [if_false, Bool.false_eq_true, Nat.zero_add]
    exact ih (fun x hx => hr x (List.mem_cons_of_mem n hx)) (n :: prev)

/-- Claim C6: for a run `r` of newline "extra" nodes inside the sibling
sequence `a ++ r ++ b`, at most one of the newline nodes performs its
forced blank-line write, and none does when the run sits at the start
(`a = []`) or the end (`b = []`) of the sibling sequence. -/
theorem claim6_blank_line_collapse (a r b : List CstN)
    (hr : ∀ x ∈ r, x.isNl = true) :
    emitsIn b a.reverse r ≤ 1
    ∧ (a = [] → emitsIn b a.reverse r = 0)
    ∧ (b = [] → emitsIn b a.reverse r = 0) := by
  refine ⟨emitsIn_le_one b r hr a.reverse, ?_, ?_⟩
  · intro ha
    subst ha
    exact emitsIn_zero_of_prev_allnl b r hr [] (by intro x hx; simp at hx)
  · intro hb
    subst hb
    exact emitsIn_zero_of_after_nil r hr a.reverse

/-- Witness for claim C6 on a concrete sibling sequence: a token, then a
run of two newline nodes, then a token. -/
theorem claim6_witness :
    emitsIn [⟨false, some "y"⟩] (List.reverse [⟨false, some "x"⟩])
      [⟨true, none⟩, ⟨true, none⟩] ≤ 1 :=
  (claim6_blank_line_collapse [⟨false, some "x"⟩] [⟨true, none⟩, ⟨true, none⟩]
    [⟨false, some "y"⟩] (by decide)).1

/-- Claim C8: `NodeMapper.get` resolves an explicitly registered kind to its
mapping (leaving the map unchanged); an unregistered kind whose
convention-derived class name (underscore split, title-cased, concatenated,
`Formatter`-suffixed) names a known class resolves to that class and caches
the result, so a second lookup hits the cache; a kind matching neither falls
back to the generic `Formatter`; token (non-named) nodes always resolve to
the generic `Formatter`; the convention is grounded on `module_decl`; and
`get` over the initial registrations computes the pure resolution that the
traversal's `lookupF` uses. -/
theorem claim8_resolution_order :
    (∀ (m : List (String × FClass)) (k : String) (c : FClass),
      nmapLookup m k = some c → NodeMapper.get m k = (c, m))
    ∧ (∀ (m : List (String × FClass)) (k : String) (c : FClass),
        nmapLookup m k = none →
        findClassByName knownClasses (derivedName k) = some c →
        NodeMapper.get m k = (c, nmapRegister m k c)
          ∧ NodeMapper.get (nmapRegister m k c) k = (c, nmapRegister m k c))
    ∧ (∀ (m : List (String × FClass)) (k : String),
        nmapLookup m k = none →
        findClassByName knownClasses (derivedName k) = none →
        NodeMapper.get m k = (FClass.Formatter, m))
    ∧ (∀ (typ : String) (m : List (String × FClass)),
        Formatter.lookupClass false typ m = (FClass.Formatter, m))
    ∧ (derivedName "module_decl" = "ModuleDeclFormatter".data
        ∧ NodeMapper.get initialMap "module_decl"
          = (FClass.ModuleDeclFormatter,
             nmapRegister initialMap "module_decl" FClass.ModuleDeclFormatter))
    ∧ (∀ k : String, (NodeMapper.get initialMap k).1 = pureResolve k) := by
  refine ⟨?_, ?_, ?_, ?_, ?_, ?_⟩
  · intro m k c hm
    simp [NodeMapper.get, hm]
  · intro m k c hm hk
    constructor
    · simp [NodeMapper.get, hm, hk, nmapRegister, nmapLookup]
    · simp [NodeMapper.get, nmapRegister, nmapLookup]
  · intro m k hm hk
    simp [NodeMapper.get, hm, hk]
  · intro typ m
    simp [Formatter.lookupClass]
  · exact ⟨by decide, by decide⟩
  · intro k
    rcases hm : nmapLookup initialMap k with _ | c
    · rcases hk : findClassByName knownClasses (derivedName k) with _ | c2
      · simp only [NodeMapper.get, pureResolve, hm, hk]
      · have hre : nmapLookup (nmapRegister initialMap k c2) k = some c2 := by
          simp [nmapRegister, nmapLookup]
        simp only [NodeMapper.get, pureResolve, hm, hk, nmapRegister] at hre ⊢
        rw [hre]
    · simp only [NodeMapper.get, pureResolve, hm]

/-- Witness for claim C8 at a concrete explicit registration. -/
theorem claim8_witness :
    NodeMapper.get initialMap "const_decl" = (FClass.GlobalDeclFormatter, initialMap) :=
  claim8_resolution_order.1 initialMap "const_decl" FClass.GlobalDeclFormatter (by decide)

/-- Claim C9: the child accessors are total over the remaining child
sequence — an index that matches no child yields `none` (`_get_child` with
any offset/absolute combination, and the kind/name/token projections and
`_next_child` all propagate the absence as `None` instead of failing). -/
theorem claim9_child_lookup_total :
    (∀ (children : List NdL) (cidx : Nat) (off : Int) (absolute : Bool),
      ((children.length : Int) ≤ (if absolute then 0 else (cidx : Int)) + off
        ∨ (if absolute then 0 else (cidx : Int)) + off < -(children.length : Int)) →
      getChild children cidx off absolute = none)
    ∧ (∀ (children : List NdL) (cidx : Nat) (off : Int) (absolute : Bool),
        getChild children cidx off absolute = none →
        getChildType children cidx off absolute = none
          ∧ getChildName children cidx off absolute = none
          ∧ getChildToken children cidx off absolute = none)
    ∧ (∀ (children : List NdL) (cidx : Nat), children.length ≤ cidx →
        nextChild children cidx = (none, cidx)) := by
  refine ⟨?_, ?_, ?_⟩
  · intro children cidx off absolute hbound
    unfold getChild pyIndex
    set i : Int := (if absolute then 0 else (cidx : Int)) + off with hi
    by_cases hpos : 0 ≤ i
    · rw [if_pos hpos]
      rcases hbound with hb | hb
      · rw [List.get?_eq_none]
        omega
      · omega
    · rw [if_neg hpos]
      rcases hbound with hb | hb
      · omega
      · rw [if_neg (by omega)]
  · intro children cidx off absolute hnone
    exact ⟨by simp [getChildType, hnone], by simp [getChildName, hnone],
      by simp [getChildToken, hnone]⟩
  · intro children cidx hlen
    unfold nextChild
    rw [List.get?_eq_none.2 hlen]

/-- Witness for claim C9 at concrete out-of-range lookups. -/
theorem claim9_witness :
    getChild [⟨"expr", true⟩] 1 0 false = none
    ∧ getChildName [⟨"expr", true⟩] 1 0 false = none
    ∧ nextChild [⟨"expr", true⟩] 1 = (none, 1) := by
  have h1 := claim9_child_lookup_total.1 [⟨"expr", true⟩] 1 0 false (by decide)
  have h2 := (claim9_child_lookup_total.2.1 [⟨"expr", true⟩] 1 0 false h1).2.1
  have h3 := claim9_child_lookup_total.2.2 [⟨"expr", true⟩] 1 (by decide)
  exact ⟨h1, h2, h3⟩

end Zeek
